import Mathlib

/-!
# Verification of `synaptic_reconstruction/distance_measurements.py`

Shallow embedding of the distance-measurement module:

* a `Volume` is a 3D integer-labeled segmentation: a shape and a total
  labeling function on integer coordinates (the array's voxels are the
  coordinates below the shape, enumerated in row-major / C order, which is
  the flattening order used by `np.argmin` / `np.unravel_index`);
* physical distances are modeled exactly over `ℚ`.  The code's distance
  fields (`scipy.ndimage.distance_transform_edt`) hold Euclidean distances,
  i.e. square roots; every use the code makes of them (masking, `argmin`,
  comparisons, storing and later ranking) is invariant under the monotone
  square root, so the embedding carries the squared distances and the claim
  theorems state the Euclidean value through `Real.sqrt`;
* the concurrent matrix builder (`compute_boundary_distances`) is modeled by
  the list of cell writes each per-object task performs; the shared arrays
  are a state `Cell → CellVal` to which a schedule (a permutation of the
  write list) is applied;
* `np.unique` is sorted deduplication, `np.argmin` takes the first minimizer
  in flattening order, `np.argsort` is modeled by a (stable) sort of the
  index range by value, `skimage.draw.line_nd` is the rounded linspace walk
  of its source (with `endpoint=True`, integer inputs), `np.round` being
  round-half-to-even, and `scipy.ndimage.binary_dilation` with the default
  cross structuring element is one step of L1-radius-1 growth clipped to the
  array bounds, iterated.
-/

namespace SynRec

/-- A voxel coordinate (3D). -/
abbrev Pt := ℤ × ℤ × ℤ

/-- A 3D labeled segmentation volume: its shape and the label of every
coordinate (labels are read only at coordinates inside the shape). -/
structure Volume where
  shape : ℕ × ℕ × ℕ
  val : Pt → ℕ

/-- All voxel coordinates of a given shape in row-major (C) order: the
flattening order used by numpy. -/
def coordsOf (shape : ℕ × ℕ × ℕ) : List Pt :=
  (List.range shape.1).flatMap fun x =>
    (List.range shape.2.1).flatMap fun y =>
      (List.range shape.2.2).map fun z => ((x : ℤ), (y : ℤ), (z : ℤ))

/-- The coordinates of a volume, row-major. -/
def Volume.coords (v : Volume) : List Pt := coordsOf v.shape

/-- The flattened list of label values of a volume (row-major). -/
def Volume.values (v : Volume) : List ℕ := v.coords.map v.val

/-- Model of `np.unique`: the sorted list of distinct values. -/
def npUnique (l : List ℕ) : List ℕ := (l.insertionSort (· ≤ ·)).dedup

/-- `seg_ids = np.unique(segmentation)[1:]`: the sorted distinct labels of
the volume with the first (smallest) one dropped. -/
def segIdsOf (v : Volume) : List ℕ := (npUnique v.values).drop 1

/-- Minimum of a list of rationals (`0` for the empty list; it is only used
on nonempty lists, where it is the least element). -/
def qListMin : List ℚ → ℚ
  | [] => 0
  | x :: xs => xs.foldl min x

/-- Model of `np.argmin` over a flattened enumeration: the first element of
the list whose `f`-value attains the minimum of `f` over the list. -/
def argminFirst (f : Pt → ℚ) (l : List Pt) : Option Pt :=
  l.find? fun p => decide (f p = qListMin (l.map f))

/-- The voxels of the object with the given label, in row-major order. -/
def objVoxels (v : Volume) (lab : ℕ) : List Pt :=
  v.coords.filter fun p => decide (v.val p = lab)

/-- Squared physical Euclidean distance between two voxels under a per-axis
resolution (the `sampling` argument of the EDT; `(1,1,1)` when absent). -/
def sqDist (res : ℚ × ℚ × ℚ) (p q : Pt) : ℚ :=
  (res.1 * ((p.1 - q.1 : ℤ) : ℚ)) ^ 2 +
    (res.2.1 * ((p.2.1 - q.2.1 : ℤ) : ℚ)) ^ 2 +
    (res.2.2 * ((p.2.2 - q.2.2 : ℤ) : ℚ)) ^ 2

/-- Model of `scipy.ndimage.distance_transform_edt(segmentation != lab,
sampling=res)` at voxel `p`, squared: the least squared physical distance
from `p` to a voxel carrying label `lab` (the zeros of the input mask). -/
def edtSqDist (v : Volume) (res : ℚ × ℚ × ℚ) (lab : ℕ) (p : Pt) : ℚ :=
  qListMin ((objVoxels v lab).map (sqDist res p))

/-- Model of the EDT's `return_indices` back-reference at voxel `p`: a
voxel of label `lab` nearest to `p` (ties resolved to the first in
row-major order; scipy returns one unspecified minimizer). -/
def edtIndices (v : Volume) (res : ℚ × ℚ × ℚ) (lab : ℕ) (p : Pt) : Pt :=
  (argminFirst (sqDist res p) (objVoxels v lab)).getD (0, 0, 0)

/-- `min_point_ngb` of `compute_distances_for_object`: the distance field of
object `labI` is masked to the voxels of object `labJ` (everything else set
to `np.inf`) and `np.argmin` is taken over the flattened volume.  Since the
mask is a sublist of the flattening that preserves order, this is the first
voxel of `labJ` in row-major order minimizing the (squared) field. -/
def minPointNgb (v : Volume) (res : ℚ × ℚ × ℚ) (labI labJ : ℕ) : Pt :=
  (argminFirst (edtSqDist v res labI) (objVoxels v labJ)).getD (0, 0, 0)

/-- The three values the task for object `labI` computes for its neighbor
`labJ`: `pairwise_distances[i, j]` (squared here), `end_points1[i, j]` (the
EDT back-reference at `min_point_ngb`) and `end_points2[i, j]`
(`min_point_ngb` itself). -/
def pairResult (v : Volume) (res : ℚ × ℚ × ℚ) (labI labJ : ℕ) : ℚ × Pt × Pt :=
  let q := minPointNgb v res labI labJ
  (edtSqDist v res labI q, edtIndices v res labI q, q)

/-- An index cell `(i, j)` of the shared output arrays. -/
abbrev Cell := ℕ × ℕ

/-- The triple of values stored at one cell of the three shared arrays
(`pairwise_distances[i,j]`, `end_points1[i,j]`, `end_points2[i,j]`). -/
abbrev CellVal := ℚ × Pt × Pt

/-- The writes performed by the unit of work `compute_distances_for_object(i)`:
for every `j in range(len(seg_ids))` with `i < j` (the `i >= j: continue`
guard), it writes cell `(i, j)` of the shared arrays. -/
def taskWrites (v : Volume) (res : ℚ × ℚ × ℚ) (ids : List ℕ) (i : ℕ) :
    List (Cell × CellVal) :=
  ((List.range ids.length).filter fun j => decide (i < j)).map fun j =>
    ((i, j), pairResult v res (ids.getD i 0) (ids.getD j 0))

/-- All writes of all tasks `i in range(n)`. -/
def allWrites (v : Volume) (res : ℚ × ℚ × ℚ) : List (Cell × CellVal) :=
  (List.range (segIdsOf v).length).flatMap (taskWrites v res (segIdsOf v))

/-- Applying a list of cell writes, in order, to a state of the shared
arrays. -/
def applyWrites (ws : List (Cell × CellVal)) (st : Cell → CellVal) : Cell → CellVal :=
  ws.foldl (fun st w => fun c => if c = w.1 then w.2 else st c) st

/-- The zero-initialized shared arrays (`np.zeros`). -/
def zeroState : Cell → CellVal := fun _ => (0, (0, 0, 0), (0, 0, 0))

/-- Model of `compute_boundary_distances`: the shared arrays after all
tasks' writes, together with `seg_ids`.  (The array component holds the
squared distances; see the module comment.) -/
def computeBoundaryDistances (v : Volume) (res : ℚ × ℚ × ℚ) :
    (Cell → CellVal) × List ℕ :=
  (applyWrites (allWrites v res) zeroState, segIdsOf v)

/-- `compute_boundary_distances` under an explicit execution schedule: the
cell writes are applied in the order of `sched`.  A run with any number of
workers performs, in some global order, exactly the writes of `allWrites`
(tasks read only the immutable segmentation, never the shared arrays), so
its schedule is a permutation of `allWrites`. -/
def computeBoundaryDistancesSched (v : Volume) (res : ℚ × ℚ × ℚ)
    (sched : List (Cell × CellVal)) : (Cell → CellVal) × List ℕ :=
  (applyWrites sched zeroState, segIdsOf v)

/-- The error outcomes of `measure_pairwise_object_distances`: the failed
`assert distance_type in supported_distances` and the explicit
`raise NotImplementedError`. -/
inductive MeasureError where
  | assertionFailed : MeasureError
  | notImplemented : MeasureError
deriving DecidableEq

/-- Model of `measure_pairwise_object_distances` (without the optional
`save_path` side effect): assert the distance type is supported, then
dispatch; `"centroid"` raises `NotImplementedError`. -/
def measurePairwiseObjectDistances (v : Volume) (distanceType : String)
    (res : ℚ × ℚ × ℚ) : Except MeasureError ((Cell → CellVal) × List ℕ) :=
  if distanceType = "boundary" ∨ distanceType = "centroid" then
    if distanceType = "boundary" then
      Except.ok (computeBoundaryDistances v res)
    else
      Except.error MeasureError.notImplemented
  else
    Except.error MeasureError.assertionFailed

/-- The masked matrix of `extract_nearest_neighbors`: the diagonal is set to
`np.inf`, and, when `ignore_lower_diag`, so is the whole lower triangle
(`np.tril_indices_from`, which includes the diagonal). -/
def maskedMatrix (dm : ℕ → ℕ → WithTop ℚ) (ignoreLower : Bool) (i j : ℕ) :
    WithTop ℚ :=
  if i = j then ⊤
  else if ignoreLower = true ∧ j ≤ i then ⊤
  else dm i j

/-- Model of `np.argsort` on row `i`: the index range sorted by ascending
masked value (numpy returns some such permutation; ties are modeled by the
stable insertion sort). -/
def sortedNeighborIdx (row : ℕ → WithTop ℚ) (n : ℕ) : List ℕ :=
  (List.range n).insertionSort fun a b => row a ≤ row b

/-- The pairs emitted from row `i` of the masked matrix: the first
`n_neighbors` indices of the ascending sort, kept while their distance is
finite (`np.isfinite`), mapped to ids, and emitted as `[seg_id, ngb_id]`
only when `ngb_id > seg_id`. -/
def rowPairs (dm : ℕ → ℕ → WithTop ℚ) (ids : List ℕ) (k : ℕ)
    (ignoreLower : Bool) (i : ℕ) : List (ℕ × ℕ) :=
  (((((sortedNeighborIdx (maskedMatrix dm ignoreLower i) ids.length).take k).filter
      fun j => decide (maskedMatrix dm ignoreLower i j ≠ ⊤)).map
    fun j => ids.getD j 0).filterMap
      fun ngb => if ids.getD i 0 < ngb then some (ids.getD i 0, ngb) else none)

/-- Model of `extract_nearest_neighbors`. -/
def extractNearestNeighbors (dm : ℕ → ℕ → WithTop ℚ) (ids : List ℕ) (k : ℕ)
    (ignoreLower : Bool) : List (ℕ × ℕ) :=
  (List.range ids.length).flatMap (rowPairs dm ids k ignoreLower)

/-- The Measurement Record loaded by `create_distance_lines` from
`measurement_path`: `distances`, `endpoints1`, `endpoints2` (indexed by
matrix cell) and the ordered `seg_ids`. -/
structure MRecord where
  segIds : List ℕ
  distances : ℕ → ℕ → ℚ
  endpoints1 : ℕ → ℕ → Pt
  endpoints2 : ℕ → ℕ → Pt

/-- One output line of `create_distance_lines` together with its aligned
properties: the pair `(id_a, id_b)`, the line's two endpoints, and the
distance. -/
structure LineEntry where
  idA : ℕ
  idB : ℕ
  lineStart : Pt
  lineStop : Pt
  dist : ℚ
deriving DecidableEq, Repr

/-- The exhaustive default pair list:
`[[id1, id2] for id1 in seg_ids for id2 in seg_ids if id1 < id2]`. -/
def exhaustivePairs (ids : List ℕ) : List (ℕ × ℕ) :=
  ids.flatMap fun a => ids.filterMap fun b => if a < b then some (a, b) else none

/-- The pair list `create_distance_lines` works with: an explicit `pairs`
argument wins; otherwise `n_neighbors` delegates to
`extract_nearest_neighbors` (with its default `ignore_lower_diag=True`);
otherwise the exhaustive default. -/
def selectPairs (r : MRecord) (nNeighbors : Option ℕ)
    (pairs : Option (List (ℕ × ℕ))) : List (ℕ × ℕ) :=
  match pairs, nNeighbors with
  | some ps, _ => ps
  | none, some k =>
      extractNearestNeighbors (fun i j => (r.distances i j : WithTop ℚ)) r.segIds k true
  | none, none => exhaustivePairs r.segIds

/-- The entry built for one pair: indices are looked up with
`seg_ids.index`, and the stored distance and endpoints at that cell are
attached. -/
def mkEntry (r : MRecord) (p : ℕ × ℕ) : LineEntry :=
  let ia := r.segIds.indexOf p.1
  let ib := r.segIds.indexOf p.2
  { idA := p.1, idB := p.2,
    lineStart := r.endpoints1 ia ib, lineStop := r.endpoints2 ia ib,
    dist := r.distances ia ib }

/-- A bounding box: a `(start, stop)` slice per axis. -/
abbrev BB := (ℤ × ℤ) × (ℤ × ℤ) × (ℤ × ℤ)

/-- The `in_bb` test: all six coordinates of both endpoints strictly between
the slice's `start` and `stop` on each axis. -/
def inBB (b : BB) (e : LineEntry) : Bool :=
  decide (b.1.1 < e.lineStart.1 ∧ e.lineStart.1 < b.1.2 ∧
    b.2.1.1 < e.lineStart.2.1 ∧ e.lineStart.2.1 < b.2.1.2 ∧
    b.2.2.1 < e.lineStart.2.2 ∧ e.lineStart.2.2 < b.2.2.2 ∧
    b.1.1 < e.lineStop.1 ∧ e.lineStop.1 < b.1.2 ∧
    b.2.1.1 < e.lineStop.2.1 ∧ e.lineStop.2.1 < b.2.1.2 ∧
    b.2.2.1 < e.lineStop.2.2 ∧ e.lineStop.2.2 < b.2.2.2)

/-- Subtracting the bounding box origin (`offset = [b.start for b in bb]`)
from both endpoints. -/
def shiftEntry (b : BB) (e : LineEntry) : LineEntry :=
  { e with
    lineStart := (e.lineStart.1 - b.1.1, e.lineStart.2.1 - b.2.1.1,
      e.lineStart.2.2 - b.2.2.1),
    lineStop := (e.lineStop.1 - b.1.1, e.lineStop.2.1 - b.2.1.1,
      e.lineStop.2.2 - b.2.2.1) }

/-- Adding the bounding box origin back to both endpoints (the inverse of
`shiftEntry`; used to compare box-relative lines with absolute ones). -/
def unshiftEntry (b : BB) (e : LineEntry) : LineEntry :=
  { e with
    lineStart := (e.lineStart.1 + b.1.1, e.lineStart.2.1 + b.2.1.1,
      e.lineStart.2.2 + b.2.2.1),
    lineStop := (e.lineStop.1 + b.1.1, e.lineStop.2.1 + b.2.1.1,
      e.lineStop.2.2 + b.2.2.1) }

/-- `lines //= scale_factor`: numpy floor division of every line coordinate
by the scale, on all three axes (`Int.fdiv` is numpy's `//` on integers). -/
def scaleEntry (s : ℤ) (e : LineEntry) : LineEntry :=
  { e with
    lineStart := (Int.fdiv e.lineStart.1 s, Int.fdiv e.lineStart.2.1 s,
      Int.fdiv e.lineStart.2.2 s),
    lineStop := (Int.fdiv e.lineStop.1 s, Int.fdiv e.lineStop.2.1 s,
      Int.fdiv e.lineStop.2.2 s) }

/-- The optional final scaling step of `create_distance_lines`. -/
def applyScale (s : Option ℤ) (l : List LineEntry) : List LineEntry :=
  match s with
  | some sc => l.map (scaleEntry sc)
  | none => l

/-- The optional bounding box step of `create_distance_lines`: filter by
`in_bb`, then subtract the box origin. -/
def applyBB (b : Option BB) (l : List LineEntry) : List LineEntry :=
  match b with
  | some bb => (l.filter (inBB bb)).map (shiftEntry bb)
  | none => l

/-- Model of the non-raising path of `create_distance_lines` (the record
stands for the arrays loaded from `measurement_path`): select the pairs,
build each pair's line and properties, then apply the bounding box step and
then the scaling step, in this order.  This total function is only the
behavior on a nonempty selected pair list; the raising path on an empty
pair list is `createDistanceLinesChecked`. -/
def createDistanceLines (r : MRecord) (nNeighbors : Option ℕ)
    (pairs : Option (List (ℕ × ℕ))) (bb : Option BB) (scale : Option ℤ) :
    List LineEntry :=
  applyScale scale (applyBB bb ((selectPairs r nNeighbors pairs).map (mkEntry r)))

/-- `create_distance_lines` with its raising path: when the selected pair
list is empty (e.g. a record with fewer than two seg ids under the
exhaustive default), `np.array([...])` over the empty list of looked-up
indices produces empty float64 arrays, and `distances[pair_indices]`
raises `IndexError` (as would `pairs[:, 0]` on the 1-D empty `np.array`);
`none` models that raise.  On a nonempty pair list the index arrays are
integer, `pairs` is 2-D, and the run is `createDistanceLines`. -/
def createDistanceLinesChecked (r : MRecord) (nNeighbors : Option ℕ)
    (pairs : Option (List (ℕ × ℕ))) (bb : Option BB) (scale : Option ℤ) :
    Option (List LineEntry) :=
  if (selectPairs r nNeighbors pairs).isEmpty then none
  else some (createDistanceLines r nNeighbors pairs bb scale)

/-- Round half to even (`np.round`). -/
def roundHalfEven (q : ℚ) : ℤ :=
  if q - ⌊q⌋ = 1 / 2 then (if Even ⌊q⌋ then ⌊q⌋ else ⌊q⌋ + 1) else round q

/-- Model of `skimage.draw.line_nd(start, stop, endpoint=True)` for integer
endpoints: `npoints = ceil(max |stop - start|) + 1` samples of the linspace
from `start` to `stop` (inclusive), rounded per coordinate.  For integer
endpoints the first linspace value is an integer, so `_round_safe` always
uses `np.round` (round half to even). -/
def lineND (s e : Pt) : List Pt :=
  let m := max (max (s.1 - e.1).natAbs (s.2.1 - e.2.1).natAbs) (s.2.2 - e.2.2).natAbs
  if m = 0 then [s]
  else
    (List.range (m + 1)).map fun i =>
      (roundHalfEven ((s.1 : ℚ) + i * ((e.1 : ℚ) - s.1) / m),
       roundHalfEven ((s.2.1 : ℚ) + i * ((e.2.1 : ℚ) - s.2.1) / m),
       roundHalfEven ((s.2.2 : ℚ) + i * ((e.2.2 : ℚ) - s.2.2) / m))

/-- The L1 distance between voxels. -/
def l1Dist (p q : Pt) : ℕ :=
  (p.1 - q.1).natAbs + (p.2.1 - q.2.1).natAbs + (p.2.2 - q.2.2).natAbs

/-- One iteration of `scipy.ndimage.binary_dilation` with the default
cross-shaped structuring element (`generate_binary_structure(3, 1)`, the
L1-radius-1 neighborhood), clipped to the array bounds. -/
def dilateStep (shape : ℕ × ℕ × ℕ) (s : List Pt) : List Pt :=
  (coordsOf shape).filter fun p => s.any fun q => decide (l1Dist p q ≤ 1)

/-- The voxel set tested by `keep_direct_distances` for one line: the
rasterized line itself for `line_dilation = 0`, else the line mask dilated
`line_dilation` times. -/
def lineVoxels (v : Volume) (k : ℕ) (s e : Pt) : List Pt :=
  (dilateStep v.shape)^[k] (lineND s e)

/-- The labels crossed by a line that are neither background nor one of the
pair's own two ids: `np.setdiff1d(np.unique(segmentation[line_vol]),
[0, id_a, id_b])`. -/
def lineSegIdsLeft (v : Volume) (k : ℕ) (e : LineEntry) : List ℕ :=
  (((lineVoxels v k e.lineStart e.lineStop).map v.val).dedup).filter fun lab =>
    decide (lab ≠ 0 ∧ lab ≠ e.idA ∧ lab ≠ e.idB)

/-- Model of `keep_direct_distances`: build the exhaustive distance lines
(`create_distance_lines` with neither `pairs` nor `n_neighbors`, no
bounding box, the given scale), and keep the pairs whose line crosses no
other segmented object. -/
def keepDirectDistances (v : Volume) (r : MRecord) (k : ℕ) (scale : Option ℤ) :
    List (ℕ × ℕ) :=
  ((createDistanceLines r none none none scale).filter fun e =>
      (lineSegIdsLeft v k e).isEmpty).map fun e => (e.idA, e.idB)

/-- Packaging the computed arrays as the Measurement Record that
`np.savez` persists and `create_distance_lines` reloads (the persisted
arrays round-trip bit-identically). -/
def recordOf (v : Volume) (res : ℚ × ℚ × ℚ) : MRecord :=
  let c := computeBoundaryDistances v res
  { segIds := c.2
    distances := fun i j => (c.1 (i, j)).1
    endpoints1 := fun i j => (c.1 (i, j)).2.1
    endpoints2 := fun i j => (c.1 (i, j)).2.2 }

/-- A concrete three-object volume: a 1×1×5 grid with labels `1, 2, 3` at
`z = 1, 3, 4` and background elsewhere. -/
def volA : Volume :=
  ⟨(1, 1, 5), fun p =>
    if p = ((0 : ℤ), (0 : ℤ), (1 : ℤ)) then 1
    else if p = ((0 : ℤ), (0 : ℤ), (3 : ℤ)) then 2
    else if p = ((0 : ℤ), (0 : ℤ), (4 : ℤ)) then 3 else 0⟩

/-- A concrete two-object volume: a 4×4×4 grid with label `1` at `(1,1,1)`,
label `2` at `(2,2,2)` and background elsewhere. -/
def volB : Volume :=
  ⟨(4, 4, 4), fun p =>
    if p = ((1 : ℤ), (1 : ℤ), (1 : ℤ)) then 1
    else if p = ((2 : ℤ), (2 : ℤ), (2 : ℤ)) then 2 else 0⟩

/-- The Measurement Record computed from `volB` at unit resolution. -/
def recB : MRecord := recordOf volB (1, 1, 1)

/-- A concrete single-object volume: a 1×1×2 grid with label `1` at
`(0,0,1)` and background at `(0,0,0)`.  Its record has exactly one seg id,
so the exhaustive pair list is empty. -/
def volC : Volume :=
  ⟨(1, 1, 2), fun p => if p = ((0 : ℤ), (0 : ℤ), (1 : ℤ)) then 1 else 0⟩

/-- The Measurement Record computed from the single-object volume `volC`:
a reachable input on which `create_distance_lines` with neither `pairs`
nor `n_neighbors` raises. -/
def recC : MRecord := recordOf volC (1, 1, 1)

/-- A bounding box `(slice(0,3), slice(0,3), slice(0,3))`: strictly smaller
than `volB`'s 4×4×4 extent on every axis, and both stored endpoints of the
single pair of `volB` are strictly inside it. -/
def bbB : BB := ((0, 3), (0, 3), (0, 3))

/-- A concrete distance matrix over two ids for witnesses: the single
off-diagonal pair has distance `1`. -/
def dmW : ℕ → ℕ → WithTop ℚ := fun i j =>
  if i = 0 ∧ j = 1 then (1 : ℚ) else if i = 1 ∧ j = 0 then (1 : ℚ) else (0 : ℚ)

/-- The functional-correctness property of `compute_boundary_distances` at
cell `(i, j)`: both stored endpoints belong to the objects at indices `i`
and `j` of `seg_ids`, the stored squared distance is realized by the stored
endpoints and is a lower bound over all voxel pairs of the two objects —
hence its square root is the minimum physical Euclidean distance between
the two objects, realized at the stored endpoints. -/
def boundaryDistanceCorrect (v : Volume) (res : ℚ × ℚ × ℚ) (i j : ℕ) : Prop :=
  ((((computeBoundaryDistances v res).1 (i, j)).2.1 ∈ v.coords ∧
      v.val (((computeBoundaryDistances v res).1 (i, j)).2.1) =
        (segIdsOf v).getD i 0) ∧
    (((computeBoundaryDistances v res).1 (i, j)).2.2 ∈ v.coords ∧
      v.val (((computeBoundaryDistances v res).1 (i, j)).2.2) =
        (segIdsOf v).getD j 0)) ∧
  ((computeBoundaryDistances v res).1 (i, j)).1 =
    sqDist res (((computeBoundaryDistances v res).1 (i, j)).2.1)
      (((computeBoundaryDistances v res).1 (i, j)).2.2) ∧
  (∀ p ∈ v.coords, v.val p = (segIdsOf v).getD i 0 →
    ∀ q ∈ v.coords, v.val q = (segIdsOf v).getD j 0 →
      ((computeBoundaryDistances v res).1 (i, j)).1 ≤ sqDist res p q) ∧
  Real.sqrt ((((computeBoundaryDistances v res).1 (i, j)).1 : ℚ) : ℝ) =
    Real.sqrt ((sqDist res (((computeBoundaryDistances v res).1 (i, j)).2.1)
      (((computeBoundaryDistances v res).1 (i, j)).2.2) : ℚ) : ℝ) ∧
  (∀ p ∈ v.coords, v.val p = (segIdsOf v).getD i 0 →
    ∀ q ∈ v.coords, v.val q = (segIdsOf v).getD j 0 →
      Real.sqrt ((((computeBoundaryDistances v res).1 (i, j)).1 : ℚ) : ℝ) ≤
        Real.sqrt ((sqDist res p q : ℚ) : ℝ))

/-- The output contract of `extract_nearest_neighbors` with the default
duplicate exclusion: at most `k` pairs originate from each object, every
pair's masked distance is finite, no object is paired with itself, every
pair satisfies `id_a < id_b`, and no unordered pair occurs twice. -/
def nearestNeighborsSpec (dm : ℕ → ℕ → WithTop ℚ) (ids : List ℕ) (k : ℕ) : Prop :=
  (∀ a, ((extractNearestNeighbors dm ids k true).filter fun p =>
      decide (p.1 = a)).length ≤ k) ∧
  (∀ p ∈ extractNearestNeighbors dm ids k true,
    ∃ i j, i < ids.length ∧ j < ids.length ∧
      ids.getD i 0 = p.1 ∧ ids.getD j 0 = p.2 ∧ maskedMatrix dm true i j ≠ ⊤) ∧
  (∀ p ∈ extractNearestNeighbors dm ids k true, p.1 ≠ p.2) ∧
  (∀ p ∈ extractNearestNeighbors dm ids k true, p.1 < p.2) ∧
  (extractNearestNeighbors dm ids k true).Nodup ∧
  List.Pairwise
    (fun p q => ¬(p.1 = q.1 ∧ p.2 = q.2) ∧ ¬(p.1 = q.2 ∧ p.2 = q.1))
    (extractNearestNeighbors dm ids k true)

/-! ## Helper lemmas -/

theorem foldl_min_le_init (xs : List ℚ) (x : ℚ) : xs.foldl min x ≤ x := by
  induction xs generalizing x with
  | nil => simp
  | cons y ys ih =>
      calc ys.foldl min (min x y) ≤ min x y := ih (min x y)
        _ ≤ x := min_le_left _ _

theorem foldl_min_le_mem (xs : List ℚ) (x : ℚ) {a : ℚ} (h : a ∈ xs) :
    xs.foldl min x ≤ a := by
  induction xs generalizing x with
  | nil => cases h
  | cons y ys ih =>
      rcases List.mem_cons.1 h with rfl | h'
      · calc ys.foldl min (min x a) ≤ min x a := foldl_min_le_init ys _
          _ ≤ a := min_le_right _ _
      · exact ih (min x y) h'

theorem foldl_min_mem (xs : List ℚ) (x : ℚ) :
    xs.foldl min x = x ∨ xs.foldl min x ∈ xs := by
  induction xs generalizing x with
  | nil => exact Or.inl rfl
  | cons y ys ih =>
      rcases ih (min x y) with h | h
      · rcases min_choice x y with h' | h'
        · exact Or.inl (by rw [List.foldl_cons, h, h'])
        · exact Or.inr (by rw [List.foldl_cons, h, h']; exact List.mem_cons_self _ _)
      · exact Or.inr (List.mem_cons_of_mem _ h)

theorem qListMin_le_of_mem {l : List ℚ} {a : ℚ} (h : a ∈ l) : qListMin l ≤ a := by
  cases l with
  | nil => cases h
  | cons x xs =>
      rcases List.mem_cons.1 h with rfl | h'
      · exact foldl_min_le_init xs a
      · exact foldl_min_le_mem xs x h'

theorem qListMin_mem {l : List ℚ} (h : l ≠ []) : qListMin l ∈ l := by
  cases l with
  | nil => exact absurd rfl h
  | cons x xs =>
      show xs.foldl min x ∈ x :: xs
      rcases foldl_min_mem xs x with h' | h'
      · rw [h']; exact List.mem_cons_self _ _
      · exact List.mem_cons_of_mem _ h'

theorem argminFirst_spec (f : Pt → ℚ) (l : List Pt) (h : l ≠ []) :
    ∃ p, argminFirst f l = some p ∧ p ∈ l ∧
      f p = qListMin (l.map f) ∧ ∀ q ∈ l, f p ≤ f q := by
  have hmap : l.map f ≠ [] := by
    cases l with
    | nil => exact absurd rfl h
    | cons x xs => simp
  have hmem : qListMin (l.map f) ∈ l.map f := qListMin_mem hmap
  rcases List.mem_map.1 hmem with ⟨p₀, hp₀, hf₀⟩
  have hfind : argminFirst f l ≠ none := by
    intro hn
    have := List.find?_eq_none.1 hn p₀ hp₀
    simp only [decide_eq_true_eq] at this
    exact this hf₀
  rcases Option.ne_none_iff_exists'.1 hfind with ⟨p, hp⟩
  refine ⟨p, hp, List.mem_of_find?_eq_some hp, ?_, ?_⟩
  · have := List.find?_some hp
    simpa using this
  · intro q hq
    have heq : f p = qListMin (l.map f) := by
      have := List.find?_some hp
      simpa using this
    rw [heq]
    exact qListMin_le_of_mem (List.mem_map_of_mem f hq)

theorem mem_npUnique {l : List ℕ} {a : ℕ} : a ∈ npUnique l ↔ a ∈ l := by
  unfold npUnique
  rw [List.mem_dedup, (List.perm_insertionSort _ l).mem_iff]

theorem npUnique_sorted (l : List ℕ) : List.Sorted (· ≤ ·) (npUnique l) :=
  List.Pairwise.sublist (List.dedup_sublist _) (List.sorted_insertionSort _ l)

theorem npUnique_nodup (l : List ℕ) : (npUnique l).Nodup :=
  List.nodup_dedup _

theorem sorted_nodup_head_lt {x : ℕ} {xs : List ℕ}
    (hs : List.Sorted (· ≤ ·) (x :: xs)) (hn : (x :: xs).Nodup) :
    ∀ a ∈ xs, x < a := by
  intro a ha
  have hle : x ≤ a := (List.rel_of_sorted_cons hs) a ha
  have hne : x ≠ a := by
    intro h
    exact (List.nodup_cons.1 hn).1 (h ▸ ha)
  exact lt_of_le_of_ne hle hne

/-- Claim C10: `seg_ids` is the sorted distinct values of the segmentation
with the first (smallest) dropped; when background `0` occurs this is
exactly the positive labels, and when it does not the smallest object label
is silently excluded while all other labels are kept. -/
theorem claim_C10_seg_id_derivation (v : Volume) :
    segIdsOf v = (npUnique v.values).drop 1 ∧
    (0 ∈ v.values → ∀ a, a ∈ segIdsOf v ↔ a ∈ v.values ∧ a ≠ 0) ∧
    (v.values ≠ [] → 0 ∉ v.values →
      ∃ m, m ∈ v.values ∧ (∀ a ∈ v.values, m ≤ a) ∧ m ∉ segIdsOf v ∧
        ∀ a ∈ v.values, a ≠ m → a ∈ segIdsOf v) := by
  refine ⟨rfl, ?_, ?_⟩
  · intro h0 a
    have h0u : 0 ∈ npUnique v.values := mem_npUnique.2 h0
    obtain ⟨x, xs, hcons⟩ : ∃ x xs, npUnique v.values = x :: xs := by
      cases hu : npUnique v.values with
      | nil => rw [hu] at h0u; cases h0u
      | cons x xs => exact ⟨x, xs, rfl⟩
    have hx0 : x = 0 := by
      rcases List.mem_cons.1 (hcons ▸ h0u) with h | h
      · exact h.symm
      · have := sorted_nodup_head_lt (hcons ▸ npUnique_sorted v.values)
          (hcons ▸ npUnique_nodup v.values) 0 h
        omega
    have hseg : segIdsOf v = xs := by
      unfold segIdsOf
      rw [hcons, List.drop_one, List.tail_cons]
    rw [hseg]
    constructor
    · intro ha
      have hau : a ∈ npUnique v.values := hcons ▸ List.mem_cons_of_mem x ha
      refine ⟨mem_npUnique.1 hau, ?_⟩
      have := sorted_nodup_head_lt (hcons ▸ npUnique_sorted v.values)
        (hcons ▸ npUnique_nodup v.values) a ha
      omega
    · rintro ⟨hav, hane⟩
      have hau : a ∈ npUnique v.values := mem_npUnique.2 hav
      rcases List.mem_cons.1 (hcons ▸ hau) with h | h
      · exact absurd (h.trans hx0) hane
      · exact h
  · intro hne h0
    have hun : npUnique v.values ≠ [] := by
      intro h
      cases hv : v.values with
      | nil => exact hne hv
      | cons y ys =>
          have : y ∈ npUnique v.values := mem_npUnique.2 (hv ▸ List.mem_cons_self _ _)
          rw [h] at this; cases this
    obtain ⟨x, xs, hcons⟩ : ∃ x xs, npUnique v.values = x :: xs := by
      cases hu : npUnique v.values with
      | nil => exact absurd hu hun
      | cons x xs => exact ⟨x, xs, rfl⟩
    have hseg : segIdsOf v = xs := by
      unfold segIdsOf
      rw [hcons, List.drop_one, List.tail_cons]
    refine ⟨x, mem_npUnique.1 (hcons ▸ List.mem_cons_self _ _), ?_, ?_, ?_⟩
    · intro a ha
      have hau : a ∈ npUnique v.values := mem_npUnique.2 ha
      rcases List.mem_cons.1 (hcons ▸ hau) with h | h
      · omega
      · have := sorted_nodup_head_lt (hcons ▸ npUnique_sorted v.values)
          (hcons ▸ npUnique_nodup v.values) a h
        omega
    · rw [hseg]
      intro hmem
      exact (List.nodup_cons.1 (hcons ▸ npUnique_nodup v.values)).1 hmem
    · intro a ha hane
      have hau : a ∈ npUnique v.values := mem_npUnique.2 ha
      rw [hseg]
      rcases List.mem_cons.1 (hcons ▸ hau) with h | h
      · exact absurd h hane
      · exact h

/-- Witness for C10 at the concrete volume `volA` (background present):
label `1` is a positive label of the volume and is kept in `seg_ids`. -/
theorem claim_C10_witness :
    0 ∈ volA.values ∧ (1 ∈ segIdsOf volA ↔ 1 ∈ volA.values ∧ 1 ≠ 0) :=
  ⟨by decide, (claim_C10_seg_id_derivation volA).2.1 (by decide) 1⟩

/-- Claim C8: `measure_pairwise_object_distances` rejects any unsupported
`distance_type` with the assertion error before computing anything, fails
with `NotImplementedError` for `"centroid"`, and only `"boundary"` returns
a result. -/
theorem claim_C8_distance_type_errors (v : Volume) (dt : String)
    (res : ℚ × ℚ × ℚ) :
    (dt ≠ "boundary" → dt ≠ "centroid" →
      measurePairwiseObjectDistances v dt res =
        Except.error MeasureError.assertionFailed) ∧
    measurePairwiseObjectDistances v "centroid" res =
      Except.error MeasureError.notImplemented ∧
    measurePairwiseObjectDistances v "boundary" res =
      Except.ok (computeBoundaryDistances v res) ∧
    ∀ out, measurePairwiseObjectDistances v dt res = Except.ok out →
      dt = "boundary" := by
  refine ⟨?_, ?_, ?_, ?_⟩
  · intro h1 h2
    unfold measurePairwiseObjectDistances
    rw [if_neg (by tauto)]
  · unfold measurePairwiseObjectDistances
    simp
  · unfold measurePairwiseObjectDistances
    simp
  · intro out hout
    by_cases hb : dt = "boundary"
    · exact hb
    · exfalso
      unfold measurePairwiseObjectDistances at hout
      by_cases hc : dt = "centroid"
      · rw [if_pos (Or.inr hc), if_neg hb] at hout
        cases hout
      · rw [if_neg (by tauto)] at hout
        cases hout

/-- Witness for C8: the unsupported distance type `"foo"` is rejected with
the assertion error. -/
theorem claim_C8_witness :
    measurePairwiseObjectDistances volA "foo" (1, 1, 1) =
      Except.error MeasureError.assertionFailed :=
  (claim_C8_distance_type_errors volA "foo" (1, 1, 1)).1 (by simp) (by simp)

theorem applyWrites_cons (w : Cell × CellVal) (ws : List (Cell × CellVal))
    (st : Cell → CellVal) :
    applyWrites (w :: ws) st =
      applyWrites ws fun c => if c = w.1 then w.2 else st c := rfl

theorem applyWrites_not_mem {ws : List (Cell × CellVal)} {c : Cell}
    (h : c ∉ ws.map Prod.fst) (st : Cell → CellVal) :
    applyWrites ws st c = st c := by
  induction ws generalizing st with
  | nil => rfl
  | cons w ws ih =>
      have hc : c ≠ w.1 := by
        intro he
        exact h (by simp [he])
      have h' : c ∉ ws.map Prod.fst := by
        intro hm
        exact h (by simp [hm])
      rw [applyWrites_cons, ih h']
      simp [hc]

theorem applyWrites_mem {ws : List (Cell × CellVal)}
    (hn : (ws.map Prod.fst).Nodup) {c : Cell} {val : CellVal}
    (h : (c, val) ∈ ws) (st : Cell → CellVal) :
    applyWrites ws st c = val := by
  induction ws generalizing st with
  | nil => cases h
  | cons w ws ih =>
      rw [List.map_cons, List.nodup_cons] at hn
      rcases List.mem_cons.1 h with he | h'
      · have hc1 : c = w.1 := congrArg Prod.fst he
        have hkey : c ∉ ws.map Prod.fst := hc1 ▸ hn.1
        rw [applyWrites_cons, applyWrites_not_mem hkey]
        rw [← he]
        simp
      · rw [applyWrites_cons, ih hn.2 h']

theorem applyWrites_perm {ws₁ ws₂ : List (Cell × CellVal)}
    (hp : ws₁.Perm ws₂) (hn : (ws₁.map Prod.fst).Nodup) (st : Cell → CellVal) :
    applyWrites ws₁ st = applyWrites ws₂ st := by
  unfold applyWrites
  refine hp.foldl_eq' ?_ st
  intro x hx y hy z
  by_cases hxy : x = y
  · rw [hxy]
  · have hne : x.1 ≠ y.1 := fun h1 =>
      hxy (List.inj_on_of_nodup_map hn hx hy h1)
    funext c
    by_cases hcx : c = x.1 <;> by_cases hcy : c = y.1 <;>
      simp [hcx, hcy] <;> simp_all

theorem taskWrites_keys (v : Volume) (res : ℚ × ℚ × ℚ) (ids : List ℕ) (i : ℕ) :
    (taskWrites v res ids i).map Prod.fst =
      ((List.range ids.length).filter fun j => decide (i < j)).map
        fun j => ((i, j) : Cell) := by
  unfold taskWrites
  rw [List.map_map]
  rfl

theorem allWrites_keys_nodup (v : Volume) (res : ℚ × ℚ × ℚ) :
    ((allWrites v res).map Prod.fst).Nodup := by
  unfold allWrites
  rw [List.map_flatMap]
  rw [List.nodup_flatMap]
  constructor
  · intro i _
    rw [taskWrites_keys]
    refine List.Nodup.map ?_ (List.Nodup.filter _ (List.nodup_range _))
    intro a b hab
    exact congrArg Prod.snd hab
  · refine List.Pairwise.imp ?_ (List.pairwise_lt_range _)
    intro a b hab
    intro c hca hcb
    simp only [] at hca hcb
    rw [taskWrites_keys] at hca hcb
    rcases List.mem_map.1 hca with ⟨j₁, _, rfl⟩
    rcases List.mem_map.1 hcb with ⟨j₂, _, he⟩
    have : b = a := congrArg Prod.fst he
    omega

theorem mem_allWrites {v : Volume} {res : ℚ × ℚ × ℚ} {i j : ℕ}
    (hij : i < j) (hj : j < (segIdsOf v).length) :
    (((i, j) : Cell),
      pairResult v res ((segIdsOf v).getD i 0) ((segIdsOf v).getD j 0)) ∈
        allWrites v res := by
  unfold allWrites taskWrites
  refine List.mem_flatMap.2 ⟨i, List.mem_range.2 (lt_trans hij hj), ?_⟩
  refine List.mem_map.2 ⟨j, ?_, rfl⟩
  exact List.mem_filter.2 ⟨List.mem_range.2 hj, by simpa using hij⟩

theorem computeBoundaryDistances_cell {v : Volume} {res : ℚ × ℚ × ℚ}
    {i j : ℕ} (hij : i < j) (hj : j < (segIdsOf v).length) :
    (computeBoundaryDistances v res).1 (i, j) =
      pairResult v res ((segIdsOf v).getD i 0) ((segIdsOf v).getD j 0) :=
  applyWrites_mem (allWrites_keys_nodup v res) (mem_allWrites hij hj) zeroState

/-- Claim C9: `compute_boundary_distances` is deterministic under
concurrency.  A run with any worker count performs the cell writes of
`allWrites` in some global order; applying any such schedule yields the
same arrays as the canonical order, because the task for object index `i`
writes only cells `(i, j)` with `j > i` and no cell is written twice. -/
theorem claim_C9_schedule_determinism (v : Volume) (res : ℚ × ℚ × ℚ)
    (sched : List (Cell × CellVal)) (hp : sched.Perm (allWrites v res)) :
    computeBoundaryDistancesSched v res sched = computeBoundaryDistances v res ∧
    (∀ i, ∀ w ∈ taskWrites v res (segIdsOf v) i, w.1.1 = i ∧ i < w.1.2) ∧
    ((allWrites v res).map Prod.fst).Nodup := by
  refine ⟨?_, ?_, allWrites_keys_nodup v res⟩
  · unfold computeBoundaryDistancesSched computeBoundaryDistances
    have hn : (sched.map Prod.fst).Nodup :=
      ((hp.map Prod.fst).nodup_iff).2 (allWrites_keys_nodup v res)
    rw [applyWrites_perm hp hn]
  · intro i w hw
    unfold taskWrites at hw
    rcases List.mem_map.1 hw with ⟨j, hj, rfl⟩
    have h2 := (List.mem_filter.1 hj).2
    simp only [decide_eq_true_eq] at h2
    exact ⟨rfl, h2⟩

/-- Witness for C9: on the three-object volume `volA`, applying the write
schedule in reverse order yields the same result as the canonical order. -/
theorem claim_C9_witness :
    computeBoundaryDistancesSched volA (1, 1, 1) (allWrites volA (1, 1, 1)).reverse =
      computeBoundaryDistances volA (1, 1, 1) :=
  (claim_C9_schedule_determinism volA (1, 1, 1) _ (List.reverse_perm _)).1

theorem segIds_mem_values {v : Volume} {a : ℕ} (h : a ∈ segIdsOf v) :
    a ∈ v.values := by
  unfold segIdsOf at h
  exact mem_npUnique.1 (List.mem_of_mem_drop h)

theorem objVoxels_ne_nil {v : Volume} {a : ℕ} (h : a ∈ v.values) :
    objVoxels v a ≠ [] := by
  rcases List.mem_map.1 h with ⟨p, hp, hv⟩
  intro hnil
  have hmem : p ∈ objVoxels v a := List.mem_filter.2 ⟨hp, by simp [hv]⟩
  rw [hnil] at hmem
  cases hmem

theorem mem_objVoxels {v : Volume} {a : ℕ} {p : Pt} :
    p ∈ objVoxels v a ↔ p ∈ v.coords ∧ v.val p = a := by
  unfold objVoxels
  rw [List.mem_filter]
  simp

theorem segIds_getD_mem {v : Volume} {i : ℕ} (h : i < (segIdsOf v).length) :
    (segIdsOf v).getD i 0 ∈ segIdsOf v := by
  rw [List.getD_eq_getElem (segIdsOf v) 0 h]
  exact List.getElem_mem h

theorem sqDist_symm (res : ℚ × ℚ × ℚ) (p q : Pt) :
    sqDist res p q = sqDist res q p := by
  unfold sqDist
  push_cast
  ring

theorem sqDist_nonneg (res : ℚ × ℚ × ℚ) (p q : Pt) : 0 ≤ sqDist res p q := by
  unfold sqDist
  positivity

/-- Claim C1: on every volume with at least two objects, for indices
`i < j` of `seg_ids`, `compute_boundary_distances` stores at `(i, j)` the
minimum physical Euclidean distance between the objects at indices `i` and
`j`, together with a voxel of each object realizing it. -/
theorem claim_C1_boundary_distances (v : Volume) (res : ℚ × ℚ × ℚ) (i j : ℕ)
    (hij : i < j) (hj : j < (segIdsOf v).length) :
    boundaryDistanceCorrect v res i j := by
  have hcell := @computeBoundaryDistances_cell v res i j hij hj
  set idI := (segIdsOf v).getD i 0 with hidI
  set idJ := (segIdsOf v).getD j 0 with hidJ
  have hI : objVoxels v idI ≠ [] :=
    objVoxels_ne_nil (segIds_mem_values (segIds_getD_mem (lt_trans hij hj)))
  have hJ : objVoxels v idJ ≠ [] :=
    objVoxels_ne_nil (segIds_mem_values (segIds_getD_mem hj))
  obtain ⟨q, hqfind, hqmem, hqval, hqmin⟩ :=
    argminFirst_spec (edtSqDist v res idI) _ hJ
  have hqpt : minPointNgb v res idI idJ = q := by
    unfold minPointNgb
    rw [hqfind]
    rfl
  obtain ⟨p1, hp1find, hp1mem, hp1val, hp1min⟩ :=
    argminFirst_spec (sqDist res q) _ hI
  have hppt : edtIndices v res idI q = p1 := by
    unfold edtIndices
    rw [hp1find]
    rfl
  have hcell' : (computeBoundaryDistances v res).1 (i, j) =
      (edtSqDist v res idI q, p1, q) := by
    rw [hcell]
    unfold pairResult
    rw [hqpt]
    show (edtSqDist v res idI q, edtIndices v res idI q, q) =
      (edtSqDist v res idI q, p1, q)
    rw [hppt]
  have hdval : edtSqDist v res idI q = sqDist res q p1 := by
    unfold edtSqDist
    rw [← hp1val]
  have hqc := mem_objVoxels.1 hqmem
  have hp1c := mem_objVoxels.1 hp1mem
  have hmin : ∀ p ∈ v.coords, v.val p = idI →
      ∀ qq ∈ v.coords, v.val qq = idJ →
        edtSqDist v res idI q ≤ sqDist res p qq := by
    intro p hpc hpv qq hqqc hqqv
    have hqqobj : qq ∈ objVoxels v idJ := mem_objVoxels.2 ⟨hqqc, hqqv⟩
    have hpobj : p ∈ objVoxels v idI := mem_objVoxels.2 ⟨hpc, hpv⟩
    calc edtSqDist v res idI q ≤ edtSqDist v res idI qq := hqmin qq hqqobj
      _ ≤ sqDist res qq p := by
          unfold edtSqDist
          exact qListMin_le_of_mem (List.mem_map_of_mem _ hpobj)
      _ = sqDist res p qq := sqDist_symm res qq p
  unfold boundaryDistanceCorrect
  rw [hcell']
  refine ⟨⟨⟨hp1c.1, hp1c.2⟩, ⟨hqc.1, hqc.2⟩⟩, ?_, hmin, ?_, ?_⟩
  · rw [hdval, sqDist_symm]
  · rw [hdval, sqDist_symm]
  · intro p hpc hpv qq hqqc hqqv
    have h := hmin p hpc hpv qq hqqc hqqv
    exact Real.sqrt_le_sqrt (by exact_mod_cast h)

/-- Witness for C1: the two objects of `volB` at indices `0 < 1`. -/
theorem claim_C1_witness :
    0 < 1 ∧ 1 < (segIdsOf volB).length ∧ boundaryDistanceCorrect volB (1, 1, 1) 0 1 :=
  ⟨Nat.zero_lt_one, by decide,
    claim_C1_boundary_distances volB (1, 1, 1) 0 1 Nat.zero_lt_one (by decide)⟩

theorem getD_inj {ids : List ℕ} (hids : ids.Nodup) {i j : ℕ}
    (hi : i < ids.length) (hj : j < ids.length)
    (h : ids.getD i 0 = ids.getD j 0) : i = j := by
  rw [List.getD_eq_getElem ids 0 hi, List.getD_eq_getElem ids 0 hj] at h
  exact (hids.getElem_inj_iff).1 h

theorem sortedNeighborIdx_perm (row : ℕ → WithTop ℚ) (n : ℕ) :
    (sortedNeighborIdx row n).Perm (List.range n) :=
  List.perm_insertionSort _ _

theorem sortedNeighborIdx_nodup (row : ℕ → WithTop ℚ) (n : ℕ) :
    (sortedNeighborIdx row n).Nodup :=
  ((sortedNeighborIdx_perm row n).nodup_iff).2 (List.nodup_range n)

theorem mem_sortedNeighborIdx {row : ℕ → WithTop ℚ} {n j : ℕ} :
    j ∈ sortedNeighborIdx row n ↔ j < n := by
  rw [(sortedNeighborIdx_perm row n).mem_iff, List.mem_range]

theorem mem_rowPairs {dm : ℕ → ℕ → WithTop ℚ} {ids : List ℕ} {k i : ℕ}
    {p : ℕ × ℕ} :
    p ∈ rowPairs dm ids k true i ↔
      ∃ j, j ∈ (sortedNeighborIdx (maskedMatrix dm true i) ids.length).take k ∧
        maskedMatrix dm true i j ≠ ⊤ ∧
        ids.getD i 0 < ids.getD j 0 ∧
        p = (ids.getD i 0, ids.getD j 0) := by
  unfold rowPairs
  rw [List.mem_filterMap]
  constructor
  · rintro ⟨ngb, hngb, hcond⟩
    rcases List.mem_map.1 hngb with ⟨j, hjf, rfl⟩
    rcases List.mem_filter.1 hjf with ⟨hjtake, hjfin⟩
    simp only [decide_eq_true_eq] at hjfin
    by_cases hlt : ids.getD i 0 < ids.getD j 0
    · rw [if_pos hlt] at hcond
      exact ⟨j, hjtake, hjfin, hlt, (Option.some.inj hcond).symm⟩
    · rw [if_neg hlt] at hcond
      cases hcond
  · rintro ⟨j, hjtake, hjfin, hlt, rfl⟩
    refine ⟨ids.getD j 0, ?_, by rw [if_pos hlt]⟩
    exact List.mem_map.2 ⟨j, List.mem_filter.2 ⟨hjtake, by simpa using hjfin⟩, rfl⟩

theorem rowPairs_length_le (dm : ℕ → ℕ → WithTop ℚ) (ids : List ℕ) (k : ℕ)
    (ign : Bool) (i : ℕ) : (rowPairs dm ids k ign i).length ≤ k := by
  unfold rowPairs
  calc (((((sortedNeighborIdx (maskedMatrix dm ign i) ids.length).take k).filter
          fun j => decide (maskedMatrix dm ign i j ≠ ⊤)).map
        fun j => ids.getD j 0).filterMap
          fun ngb => if ids.getD i 0 < ngb then some (ids.getD i 0, ngb)
            else none).length
      ≤ ((((sortedNeighborIdx (maskedMatrix dm ign i) ids.length).take k).filter
          fun j => decide (maskedMatrix dm ign i j ≠ ⊤)).map
        fun j => ids.getD j 0).length := List.length_filterMap_le _ _
    _ = ((((sortedNeighborIdx (maskedMatrix dm ign i) ids.length).take k).filter
          fun j => decide (maskedMatrix dm ign i j ≠ ⊤))).length := List.length_map _ _
    _ ≤ (((sortedNeighborIdx (maskedMatrix dm ign i) ids.length).take k)).length :=
        List.length_filter_le _ _
    _ ≤ k := by rw [List.length_take]; exact min_le_left _ _

theorem rowPairs_fst {dm : ℕ → ℕ → WithTop ℚ} {ids : List ℕ} {k i : ℕ}
    {p : ℕ × ℕ} (h : p ∈ rowPairs dm ids k true i) : p.1 = ids.getD i 0 := by
  rcases mem_rowPairs.1 h with ⟨j, _, _, _, rfl⟩
  rfl

theorem rowPairs_nodup {dm : ℕ → ℕ → WithTop ℚ} {ids : List ℕ} {k i : ℕ}
    (hids : ids.Nodup) : (rowPairs dm ids k true i).Nodup := by
  unfold rowPairs
  refine List.Nodup.filterMap ?_ ?_
  · intro a a' b hb hb'
    by_cases ha : ids.getD i 0 < a
    · rw [if_pos ha] at hb
      by_cases ha' : ids.getD i 0 < a'
      · rw [if_pos ha'] at hb'
        have h1 : b.2 = a := by rw [← Option.some.inj hb]
        have h2 : b.2 = a' := by rw [← Option.some.inj hb']
        rw [← h1, h2]
      · rw [if_neg ha'] at hb'
        cases hb'
    · rw [if_neg ha] at hb
      cases hb
  · refine List.Nodup.map_on ?_ (List.Nodup.filter _
      (List.Nodup.sublist (List.take_sublist _ _) (sortedNeighborIdx_nodup _ _)))
    intro x hx y hy hxy
    have hxm := List.mem_filter.1 hx
    have hym := List.mem_filter.1 hy
    have hxn : x < ids.length :=
      mem_sortedNeighborIdx.1 (List.take_subset _ _ hxm.1)
    have hyn : y < ids.length :=
      mem_sortedNeighborIdx.1 (List.take_subset _ _ hym.1)
    exact getD_inj hids hxn hyn hxy

theorem extractNearestNeighbors_nodup {dm : ℕ → ℕ → WithTop ℚ}
    {ids : List ℕ} {k : ℕ} (hids : ids.Nodup) :
    (extractNearestNeighbors dm ids k true).Nodup := by
  unfold extractNearestNeighbors
  rw [List.nodup_flatMap]
  constructor
  · intro i _
    exact rowPairs_nodup hids
  · refine List.Pairwise.imp_of_mem ?_ (List.pairwise_lt_range _)
    intro a b ha hb hab
    intro p hpa hpb
    have h1 := rowPairs_fst hpa
    have h2 := rowPairs_fst hpb
    have han : a < ids.length := List.mem_range.1 ha
    have hbn : b < ids.length := List.mem_range.1 hb
    have : a = b := getD_inj hids han hbn (h1.symm.trans h2)
    omega

theorem flatMap_rowPairs_fst {dm : ℕ → ℕ → WithTop ℚ} {ids : List ℕ} {k : ℕ}
    {is : List ℕ} {p : ℕ × ℕ}
    (h : p ∈ is.flatMap (rowPairs dm ids k true)) :
    ∃ i ∈ is, p.1 = ids.getD i 0 := by
  rcases List.mem_flatMap.1 h with ⟨i, hi, hp⟩
  exact ⟨i, hi, rowPairs_fst hp⟩

theorem count_rowPairs_aux (dm : ℕ → ℕ → WithTop ℚ) (ids : List ℕ) (k : ℕ)
    (hids : ids.Nodup) (a : ℕ) :
    ∀ is : List ℕ, is.Nodup → (∀ x ∈ is, x < ids.length) →
      (((is.flatMap (rowPairs dm ids k true)).filter
        fun p => decide (p.1 = a)).length) ≤ k := by
  intro is
  induction is with
  | nil => intro _ _; simp
  | cons i tl ih =>
      intro hnd hlt
      rw [List.flatMap_cons, List.filter_append, List.length_append]
      rcases List.nodup_cons.1 hnd with ⟨hitl, htl⟩
      by_cases ha : ids.getD i 0 = a
      · have htl0 : ((tl.flatMap (rowPairs dm ids k true)).filter
            fun p => decide (p.1 = a)).length = 0 := by
          rw [List.length_eq_zero]
          rw [List.filter_eq_nil_iff]
          intro p hp
          rcases flatMap_rowPairs_fst hp with ⟨i', hi', hfst⟩
          simp only [decide_eq_true_eq]
          intro hpa
          have : i' = i := getD_inj hids (hlt i' (List.mem_cons_of_mem _ hi'))
            (hlt i (List.mem_cons_self _ _)) (by rw [← hfst, hpa, ha])
          exact hitl (this ▸ hi')
        rw [htl0]
        have := List.length_filter_le (fun p => decide (p.1 = a))
          (rowPairs dm ids k true i)
        have hrow := rowPairs_length_le dm ids k true i
        omega
      · have hrow0 : ((rowPairs dm ids k true i).filter
            fun p => decide (p.1 = a)).length = 0 := by
          rw [List.length_eq_zero, List.filter_eq_nil_iff]
          intro p hp
          simp only [decide_eq_true_eq]
          intro hpa
          exact ha ((rowPairs_fst hp).symm.trans hpa)
        rw [hrow0]
        have := ih htl fun x hx => hlt x (List.mem_cons_of_mem _ hx)
        omega

/-- Claim C3: `extract_nearest_neighbors` with its default duplicate
exclusion returns at most `k` pairs per object, only finite masked
distances, no self-pairs, canonical `id_a < id_b` pairs, and never the same
unordered pair twice. -/
theorem claim_C3_nearest_neighbors (dm : ℕ → ℕ → WithTop ℚ) (ids : List ℕ)
    (k : ℕ) (hids : ids.Nodup) : nearestNeighborsSpec dm ids k := by
  have hlt : ∀ p ∈ extractNearestNeighbors dm ids k true, p.1 < p.2 := by
    intro p hp
    rcases List.mem_flatMap.1 hp with ⟨i, _, hrow⟩
    rcases mem_rowPairs.1 hrow with ⟨j, _, _, hl, rfl⟩
    exact hl
  have hnd : (extractNearestNeighbors dm ids k true).Nodup :=
    extractNearestNeighbors_nodup hids
  refine ⟨?_, ?_, ?_, hlt, hnd, ?_⟩
  · intro a
    exact count_rowPairs_aux dm ids k hids a (List.range ids.length)
      (List.nodup_range _) fun x hx => List.mem_range.1 hx
  · intro p hp
    rcases List.mem_flatMap.1 hp with ⟨i, hi, hrow⟩
    rcases mem_rowPairs.1 hrow with ⟨j, hjtake, hjfin, _, rfl⟩
    exact ⟨i, j, List.mem_range.1 hi,
      mem_sortedNeighborIdx.1 (List.take_subset _ _ hjtake), rfl, rfl, hjfin⟩
  · intro p hp
    exact Nat.ne_of_lt (hlt p hp)
  · have hpw : (extractNearestNeighbors dm ids k true).Pairwise (· ≠ ·) := hnd
    refine List.Pairwise.imp_of_mem ?_ hpw
    intro p q hpm hq hne
    constructor
    · intro ⟨h1, h2⟩
      exact hne (Prod.ext_iff.2 ⟨h1, h2⟩)
    · intro ⟨h1, h2⟩
      have hp1 := hlt p hpm
      have hq1 := hlt q hq
      omega

/-- Witness for C3 at a concrete two-id matrix with a single finite
off-diagonal entry. -/
theorem claim_C3_witness :
    ([1, 2] : List ℕ).Nodup ∧ nearestNeighborsSpec dmW [1, 2] 1 :=
  ⟨by decide, claim_C3_nearest_neighbors dmW [1, 2] 1 (by decide)⟩

/-- Claim C4: with a bounding box, `create_distance_lines` first retains
exactly the lines whose both endpoints are strictly inside the box on all
three axes, then translates the retained endpoints by the box origin, and
only then applies the optional scaling. -/
theorem claim_C4_bounding_box_order (r : MRecord) (nn : Option ℕ)
    (ps : Option (List (ℕ × ℕ))) (b : BB) (s : Option ℤ) :
    createDistanceLines r nn ps (some b) s =
      applyScale s
        (((createDistanceLines r nn ps none none).filter fun e =>
            decide (b.1.1 < e.lineStart.1 ∧ e.lineStart.1 < b.1.2 ∧
              b.2.1.1 < e.lineStart.2.1 ∧ e.lineStart.2.1 < b.2.1.2 ∧
              b.2.2.1 < e.lineStart.2.2 ∧ e.lineStart.2.2 < b.2.2.2 ∧
              b.1.1 < e.lineStop.1 ∧ e.lineStop.1 < b.1.2 ∧
              b.2.1.1 < e.lineStop.2.1 ∧ e.lineStop.2.1 < b.2.1.2 ∧
              b.2.2.1 < e.lineStop.2.2 ∧ e.lineStop.2.2 < b.2.2.2)).map
          fun e =>
            { e with
              lineStart := (e.lineStart.1 - b.1.1, e.lineStart.2.1 - b.2.1.1,
                e.lineStart.2.2 - b.2.2.1),
              lineStop := (e.lineStop.1 - b.1.1, e.lineStop.2.1 - b.2.1.1,
                e.lineStop.2.2 - b.2.2.1) }) := rfl

theorem fdiv_eq_floor {a s : ℤ} (hs : 0 < s) :
    Int.fdiv a s = ⌊(a : ℚ) / (s : ℚ)⌋ := by
  rw [Int.fdiv_eq_ediv a hs.le]
  have h1 : ((s.toNat : ℕ) : ℤ) = s := Int.toNat_of_nonneg hs.le
  rw [← h1, ← Rat.floor_intCast_div_natCast a s.toNat]
  norm_cast

/-- Claim C5: with a scale factor, every output coordinate of
`create_distance_lines` is the numpy floor division of the (already
offset-adjusted) coordinate by the scale, componentwise on all three axes,
with nothing applied afterwards; for a positive scale this is the integer
floor `⌊c / s⌋`. -/
theorem claim_C5_scale_floor_division (r : MRecord) (nn : Option ℕ)
    (ps : Option (List (ℕ × ℕ))) (bb : Option BB) (s : ℤ) :
    createDistanceLines r nn ps bb (some s) =
      (createDistanceLines r nn ps bb none).map (fun e =>
        { e with
          lineStart := (Int.fdiv e.lineStart.1 s, Int.fdiv e.lineStart.2.1 s,
            Int.fdiv e.lineStart.2.2 s),
          lineStop := (Int.fdiv e.lineStop.1 s, Int.fdiv e.lineStop.2.1 s,
            Int.fdiv e.lineStop.2.2 s) }) ∧
    (0 < s → ∀ e ∈ createDistanceLines r nn ps bb (some s),
      ∃ e₀ ∈ createDistanceLines r nn ps bb none,
        e.idA = e₀.idA ∧ e.idB = e₀.idB ∧ e.dist = e₀.dist ∧
        e.lineStart.1 = ⌊(e₀.lineStart.1 : ℚ) / (s : ℚ)⌋ ∧
        e.lineStart.2.1 = ⌊(e₀.lineStart.2.1 : ℚ) / (s : ℚ)⌋ ∧
        e.lineStart.2.2 = ⌊(e₀.lineStart.2.2 : ℚ) / (s : ℚ)⌋ ∧
        e.lineStop.1 = ⌊(e₀.lineStop.1 : ℚ) / (s : ℚ)⌋ ∧
        e.lineStop.2.1 = ⌊(e₀.lineStop.2.1 : ℚ) / (s : ℚ)⌋ ∧
        e.lineStop.2.2 = ⌊(e₀.lineStop.2.2 : ℚ) / (s : ℚ)⌋) := by
  constructor
  · rfl
  · intro hs e he
    have heq : createDistanceLines r nn ps bb (some s) =
        (createDistanceLines r nn ps bb none).map (scaleEntry s) := rfl
    rw [heq] at he
    rcases List.mem_map.1 he with ⟨e₀, he₀, rfl⟩
    refine ⟨e₀, he₀, rfl, rfl, rfl, ?_, ?_, ?_, ?_, ?_, ?_⟩ <;>
      exact fdiv_eq_floor hs

/-- Witness for C5: the scaling conjunct applied to `recB` with scale 2. -/
theorem claim_C5_witness :
    createDistanceLines recB none none none (some 2) =
      (createDistanceLines recB none none none none).map (fun e =>
        { e with
          lineStart := (Int.fdiv e.lineStart.1 2, Int.fdiv e.lineStart.2.1 2,
            Int.fdiv e.lineStart.2.2 2),
          lineStop := (Int.fdiv e.lineStop.1 2, Int.fdiv e.lineStop.2.1 2,
            Int.fdiv e.lineStop.2.2 2) }) :=
  (claim_C5_scale_floor_division recB none none none 2).1

theorem mem_exhaustivePairs {ids : List ℕ} {p : ℕ × ℕ} :
    p ∈ exhaustivePairs ids ↔ p.1 ∈ ids ∧ p.2 ∈ ids ∧ p.1 < p.2 := by
  unfold exhaustivePairs
  rw [List.mem_flatMap]
  constructor
  · rintro ⟨a, ha, hp⟩
    rcases List.mem_filterMap.1 hp with ⟨b, hb, hcond⟩
    by_cases hab : a < b
    · rw [if_pos hab] at hcond
      rcases Option.some.inj hcond with rfl
      exact ⟨ha, hb, hab⟩
    · rw [if_neg hab] at hcond
      cases hcond
  · rintro ⟨h1, h2, h3⟩
    refine ⟨p.1, h1, List.mem_filterMap.2 ⟨p.2, h2, ?_⟩⟩
    rw [if_pos h3]

theorem exhaustivePairs_nodup {ids : List ℕ} (hids : ids.Nodup) :
    (exhaustivePairs ids).Nodup := by
  unfold exhaustivePairs
  rw [List.nodup_flatMap]
  constructor
  · intro a _
    refine List.Nodup.filterMap ?_ hids
    intro b b' c hc hc'
    by_cases hb : a < b
    · rw [if_pos hb] at hc
      by_cases hb' : a < b'
      · rw [if_pos hb'] at hc'
        have e1 : c.2 = b := by rw [← Option.some.inj hc]
        have e2 : c.2 = b' := by rw [← Option.some.inj hc']
        rw [← e1, e2]
      · rw [if_neg hb'] at hc'
        cases hc'
    · rw [if_neg hb] at hc
      cases hc
  · have hpw : ids.Pairwise (· ≠ ·) := hids
    refine List.Pairwise.imp ?_ hpw
    intro a b hab
    intro c hca hcb
    rcases List.mem_filterMap.1 hca with ⟨x, _, hx⟩
    rcases List.mem_filterMap.1 hcb with ⟨y, _, hy⟩
    have h1 : c.1 = a := by
      by_cases h : a < x
      · rw [if_pos h] at hx; rw [← Option.some.inj hx]
      · rw [if_neg h] at hx; cases hx
    have h2 : c.1 = b := by
      by_cases h : b < y
      · rw [if_pos h] at hy; rw [← Option.some.inj hy]
      · rw [if_neg h] at hy; cases hy
    exact hab (h1.symm.trans h2)

/-- Counterexample to C6 as stated: on the reachable Measurement Record of
the single-object volume `volC` (one seg id, so the exhaustive pair list is
empty), `create_distance_lines` with neither `pairs` nor `n_neighbors`
*does* raise — `np.array([])` index arrays are float64, so
`distances[pair_indices]` raises `IndexError` (as would `pairs[:, 0]` on
the 1-D empty array) — refuting the claim's "does not raise". -/
theorem claim_C6_counterexample :
    recC.segIds.length = 1 ∧
    createDistanceLinesChecked recC none none none none = none :=
  ⟨rfl, rfl⟩

/-- Claim C6 (amended): with neither an explicit pair list nor a neighbor
count, on a record with at least two (distinct) seg ids,
`create_distance_lines` does not raise — the run is the non-error path —
and it emits exactly one line per combination `(id1, id2)` of seg ids with
`id1 < id2`: the pair projection of the output is the exhaustive pair
list, which contains every such combination exactly once. -/
theorem claim_C6_exhaustive_default (r : MRecord) (hnd : r.segIds.Nodup)
    (h2 : 2 ≤ r.segIds.length) :
    createDistanceLinesChecked r none none none none =
      some (createDistanceLines r none none none none) ∧
    (createDistanceLines r none none none none).map (fun e => (e.idA, e.idB)) =
      exhaustivePairs r.segIds ∧
    (∀ p : ℕ × ℕ, p ∈ exhaustivePairs r.segIds ↔
      p.1 ∈ r.segIds ∧ p.2 ∈ r.segIds ∧ p.1 < p.2) ∧
    (exhaustivePairs r.segIds).Nodup := by
  have hne : exhaustivePairs r.segIds ≠ [] := by
    obtain ⟨a, tl, htl⟩ : ∃ a tl, r.segIds = a :: tl := by
      cases hh : r.segIds with
      | nil => rw [hh] at h2; simp at h2
      | cons a tl => exact ⟨a, tl, rfl⟩
    obtain ⟨b, tl2, htl2⟩ : ∃ b tl2, tl = b :: tl2 := by
      cases hh : tl with
      | nil => rw [htl, hh] at h2; simp at h2
      | cons b tl2 => exact ⟨b, tl2, rfl⟩
    have hab : a ≠ b := by
      have hnd' := hnd
      rw [htl, htl2, List.nodup_cons] at hnd'
      intro he
      exact hnd'.1 (he ▸ List.mem_cons_self _ _)
    have hmema : a ∈ r.segIds := by
      rw [htl]; exact List.mem_cons_self _ _
    have hmemb : b ∈ r.segIds := by
      rw [htl, htl2]; exact List.mem_cons_of_mem _ (List.mem_cons_self _ _)
    rcases Nat.lt_or_ge a b with hlt | hge
    · exact List.ne_nil_of_mem
        ((@mem_exhaustivePairs r.segIds (a, b)).2 ⟨hmema, hmemb, hlt⟩)
    · have hlt : b < a := lt_of_le_of_ne hge (Ne.symm hab)
      exact List.ne_nil_of_mem
        ((@mem_exhaustivePairs r.segIds (b, a)).2 ⟨hmemb, hmema, hlt⟩)
  refine ⟨?_, ?_, fun p => mem_exhaustivePairs, exhaustivePairs_nodup hnd⟩
  · show (if (exhaustivePairs r.segIds).isEmpty = true then none
        else some (createDistanceLines r none none none none)) =
      some (createDistanceLines r none none none none)
    rw [if_neg fun h => hne (List.isEmpty_iff.1 h)]
  · show ((exhaustivePairs r.segIds).map (mkEntry r)).map (fun e => (e.idA, e.idB)) =
      exhaustivePairs r.segIds
    rw [List.map_map]
    have h : ∀ p : ℕ × ℕ, ((fun e => (e.idA, e.idB)) ∘ mkEntry r) p = p := fun p => rfl
    calc ((exhaustivePairs r.segIds).map ((fun e => (e.idA, e.idB)) ∘ mkEntry r))
        = (exhaustivePairs r.segIds).map id := List.map_congr_left fun p _ => h p
      _ = exhaustivePairs r.segIds := List.map_id _

/-- Witness for C6 (amended) at the record of the two-object volume `volB`:
both hypotheses hold and the run is the non-raising path. -/
theorem claim_C6_witness :
    recB.segIds.Nodup ∧ 2 ≤ recB.segIds.length ∧
      createDistanceLinesChecked recB none none none none =
        some (createDistanceLines recB none none none none) :=
  ⟨by decide, by decide,
    (claim_C6_exhaustive_default recB (by decide) (by decide)).1⟩

theorem unshift_shift (b : BB) (e : LineEntry) :
    unshiftEntry b (shiftEntry b e) = e := by
  obtain ⟨ia, ib, ⟨s1, s2, s3⟩, ⟨t1, t2, t3⟩, d⟩ := e
  show LineEntry.mk ia ib
      (s1 - b.1.1 + b.1.1, s2 - b.2.1.1 + b.2.1.1, s3 - b.2.2.1 + b.2.2.1)
      (t1 - b.1.1 + b.1.1, t2 - b.2.1.1 + b.2.1.1, t3 - b.2.2.1 + b.2.2.1) d =
    LineEntry.mk ia ib (s1, s2, s3) (t1, t2, t3) d
  rw [Int.sub_add_cancel, Int.sub_add_cancel, Int.sub_add_cancel,
    Int.sub_add_cancel, Int.sub_add_cancel, Int.sub_add_cancel]

theorem shiftEntry_zero {b : BB} (h1 : b.1.1 = 0) (h2 : b.2.1.1 = 0)
    (h3 : b.2.2.1 = 0) (e : LineEntry) : shiftEntry b e = e := by
  obtain ⟨ia, ib, ⟨s1, s2, s3⟩, ⟨t1, t2, t3⟩, d⟩ := e
  show LineEntry.mk ia ib (s1 - b.1.1, s2 - b.2.1.1, s3 - b.2.2.1)
      (t1 - b.1.1, t2 - b.2.1.1, t3 - b.2.2.1) d =
    LineEntry.mk ia ib (s1, s2, s3) (t1, t2, t3) d
  rw [h1, h2, h3, Int.sub_zero, Int.sub_zero, Int.sub_zero, Int.sub_zero,
    Int.sub_zero, Int.sub_zero]

theorem volB_cell :
    (computeBoundaryDistances volB (1, 1, 1)).1 (0, 1) =
      pairResult volB (1, 1, 1) 1 2 :=
  computeBoundaryDistances_cell Nat.zero_lt_one (by decide)

theorem volB_endpoints :
    ((computeBoundaryDistances volB (1, 1, 1)).1 (0, 1)).2.1 = ((1 : ℤ), (1 : ℤ), (1 : ℤ)) ∧
    ((computeBoundaryDistances volB (1, 1, 1)).1 (0, 1)).2.2 = ((2 : ℤ), (2 : ℤ), (2 : ℤ)) := by
  have hobj1 : objVoxels volB 1 = [((1 : ℤ), (1 : ℤ), (1 : ℤ))] := by decide
  have hobj2 : objVoxels volB 2 = [((2 : ℤ), (2 : ℤ), (2 : ℤ))] := by decide
  obtain ⟨q, hqf, hqm, _, _⟩ := argminFirst_spec (edtSqDist volB (1, 1, 1) 1)
    (objVoxels volB 2) (by rw [hobj2]; exact fun h => List.noConfusion h)
  have hq : q = ((2 : ℤ), (2 : ℤ), (2 : ℤ)) := by
    rw [hobj2] at hqm
    simpa using hqm
  have hmin : minPointNgb volB (1, 1, 1) 1 2 = ((2 : ℤ), (2 : ℤ), (2 : ℤ)) := by
    unfold minPointNgb
    rw [hqf, hq]
    rfl
  obtain ⟨p, hpf, hpm, _, _⟩ :=
    argminFirst_spec (sqDist (1, 1, 1) ((2 : ℤ), (2 : ℤ), (2 : ℤ)))
      (objVoxels volB 1) (by rw [hobj1]; exact fun h => List.noConfusion h)
  have hp : p = ((1 : ℤ), (1 : ℤ), (1 : ℤ)) := by
    rw [hobj1] at hpm
    simpa using hpm
  rw [volB_cell]
  show (edtIndices volB (1, 1, 1) 1 (minPointNgb volB (1, 1, 1) 1 2) =
      ((1 : ℤ), (1 : ℤ), (1 : ℤ))) ∧
    (minPointNgb volB (1, 1, 1) 1 2 = ((2 : ℤ), (2 : ℤ), (2 : ℤ)))
  refine ⟨?_, hmin⟩
  rw [hmin]
  unfold edtIndices
  rw [hpf, hp]
  rfl

/-- Counterexample to C7 as stated: for the Measurement Record of `volB`
and the box `bbB` — strictly smaller than the volume on every axis, with
both stored endpoints strictly inside it and box origin `0` — the line set
returned with the box *equals* the exhaustive line set, so it is not a
strict subset of it. -/
theorem claim_C7_counterexample :
    (0 ≤ bbB.1.1 ∧ bbB.1.2 - bbB.1.1 < (volB.shape.1 : ℤ)) ∧
    (0 ≤ bbB.2.1.1 ∧ bbB.2.1.2 - bbB.2.1.1 < (volB.shape.2.1 : ℤ)) ∧
    (0 ≤ bbB.2.2.1 ∧ bbB.2.2.2 - bbB.2.2.1 < (volB.shape.2.2 : ℤ)) ∧
    (createDistanceLines recB none none (some bbB) none).toFinset =
      (createDistanceLines recB none none none none).toFinset ∧
    ¬ (createDistanceLines recB none none (some bbB) none).toFinset ⊂
      (createDistanceLines recB none none none none).toFinset := by
  have hbase : createDistanceLines recB none none none none =
      [mkEntry recB (1, 2)] := rfl
  have hep := volB_endpoints
  have hstart : (mkEntry recB (1, 2)).lineStart = ((1 : ℤ), (1 : ℤ), (1 : ℤ)) := hep.1
  have hstop : (mkEntry recB (1, 2)).lineStop = ((2 : ℤ), (2 : ℤ), (2 : ℤ)) := hep.2
  have hin : inBB bbB (mkEntry recB (1, 2)) = true := by
    unfold inBB
    rw [hstart, hstop]
    decide
  have hshift : shiftEntry bbB (mkEntry recB (1, 2)) = mkEntry recB (1, 2) :=
    shiftEntry_zero rfl rfl rfl _
  have hlist : createDistanceLines recB none none (some bbB) none =
      createDistanceLines recB none none none none := by
    have h1 : createDistanceLines recB none none (some bbB) none =
        ((createDistanceLines recB none none none none).filter (inBB bbB)).map
          (shiftEntry bbB) := rfl
    rw [h1, hbase, List.filter_cons_of_pos hin]
    show ([mkEntry recB (1, 2)].map (shiftEntry bbB)) = [mkEntry recB (1, 2)]
    rw [List.map_cons, hshift]
    rfl
  refine ⟨by decide, by decide, by decide, by rw [hlist], ?_⟩
  rw [hlist]
  intro hss
  exact (Finset.ssubset_def.1 hss).2 (Finset.Subset.refl _)

/-- Claim C7 (amended): with a bounding box, the returned line set — with
the box origin added back to every endpoint — is a sublist (hence a subset,
but not necessarily a strict one) of the exhaustive line set, and each
retained line's endpoints lie within `[0, box size)` on every axis after
offset adjustment. -/
theorem claim_C7_amended_box_subset (r : MRecord) (b : BB) :
    ((createDistanceLines r none none (some b) none).map (unshiftEntry b)).Sublist
      (createDistanceLines r none none none none) ∧
    ∀ e ∈ createDistanceLines r none none (some b) none,
      (0 ≤ e.lineStart.1 ∧ e.lineStart.1 < b.1.2 - b.1.1) ∧
      (0 ≤ e.lineStart.2.1 ∧ e.lineStart.2.1 < b.2.1.2 - b.2.1.1) ∧
      (0 ≤ e.lineStart.2.2 ∧ e.lineStart.2.2 < b.2.2.2 - b.2.2.1) ∧
      (0 ≤ e.lineStop.1 ∧ e.lineStop.1 < b.1.2 - b.1.1) ∧
      (0 ≤ e.lineStop.2.1 ∧ e.lineStop.2.1 < b.2.1.2 - b.2.1.1) ∧
      (0 ≤ e.lineStop.2.2 ∧ e.lineStop.2.2 < b.2.2.2 - b.2.2.1) := by
  have hrepr : createDistanceLines r none none (some b) none =
      ((createDistanceLines r none none none none).filter (inBB b)).map
        (shiftEntry b) := rfl
  constructor
  · rw [hrepr, List.map_map]
    have h : unshiftEntry b ∘ shiftEntry b = id := funext (unshift_shift b)
    rw [h, List.map_id]
    exact List.filter_sublist _
  · intro e he
    rw [hrepr] at he
    rcases List.mem_map.1 he with ⟨e₀, he₀, rfl⟩
    have hbb := (List.mem_filter.1 he₀).2
    unfold inBB at hbb
    rw [decide_eq_true_eq] at hbb
    obtain ⟨h1, h2, h3, h4, h5, h6, h7, h8, h9, h10, h11, h12⟩ := hbb
    dsimp only [shiftEntry]
    refine ⟨⟨by omega, by omega⟩, ⟨by omega, by omega⟩, ⟨by omega, by omega⟩,
      ⟨by omega, by omega⟩, ⟨by omega, by omega⟩, ⟨by omega, by omega⟩⟩

/-- Witness for the amended C7 at the concrete record and box of `volB`. -/
theorem claim_C7_amended_witness :
    ((createDistanceLines recB none none (some bbB) none).map
        (unshiftEntry bbB)).Sublist
      (createDistanceLines recB none none none none) :=
  (claim_C7_amended_box_subset recB bbB).1

/-- Claim C2: `keep_direct_distances` retains a pair `(a, b)` (among the
exhaustive candidate pairs of the record) if and only if every label on the
rasterized voxel line between the pair's stored endpoints — dilated
`line_dilation` times when `line_dilation > 0` — is the background, `a`, or
`b`; i.e. iff the label set of the (possibly thickened) path minus
`{0, a, b}` is empty. -/
theorem claim_C2_direct_filter (v : Volume) (r : MRecord) (k : ℕ) (a b : ℕ) :
    (a, b) ∈ keepDirectDistances v r k none ↔
      ((a, b) ∈ exhaustivePairs r.segIds ∧
        ∀ lab ∈ (lineVoxels v k
            (r.endpoints1 (r.segIds.indexOf a) (r.segIds.indexOf b))
            (r.endpoints2 (r.segIds.indexOf a) (r.segIds.indexOf b))).map v.val,
          lab = 0 ∨ lab = a ∨ lab = b) := by
  have hrep : keepDirectDistances v r k none =
      (((exhaustivePairs r.segIds).map (mkEntry r)).filter fun e =>
        (lineSegIdsLeft v k e).isEmpty).map fun e => (e.idA, e.idB) := rfl
  have hleft : lineSegIdsLeft v k (mkEntry r (a, b)) =
      ((lineVoxels v k
          (r.endpoints1 (r.segIds.indexOf a) (r.segIds.indexOf b))
          (r.endpoints2 (r.segIds.indexOf a) (r.segIds.indexOf b))).map
        v.val).dedup.filter fun lab =>
          decide (lab ≠ 0 ∧ lab ≠ a ∧ lab ≠ b) := rfl
  rw [hrep]
  constructor
  · intro h
    rcases List.mem_map.1 h with ⟨e, hef, hpair⟩
    rcases List.mem_filter.1 hef with ⟨hemem, hpred⟩
    rcases List.mem_map.1 hemem with ⟨p, hpmem, rfl⟩
    have hp : p = (a, b) :=
      Prod.ext_iff.2 ⟨congrArg Prod.fst hpair, congrArg Prod.snd hpair⟩
    rw [hp] at hpmem hpred
    refine ⟨hpmem, ?_⟩
    have hnil := List.isEmpty_iff.1 hpred
    rw [hleft, List.filter_eq_nil_iff] at hnil
    intro lab hlab
    have := hnil lab (List.mem_dedup.2 hlab)
    simp only [decide_eq_true_eq] at this
    by_cases h0 : lab = 0
    · exact Or.inl h0
    · by_cases ha : lab = a
      · exact Or.inr (Or.inl ha)
      · by_cases hb : lab = b
        · exact Or.inr (Or.inr hb)
        · exact absurd ⟨h0, ha, hb⟩ this
  · rintro ⟨hmem, hall⟩
    refine List.mem_map.2 ⟨mkEntry r (a, b), ?_, rfl⟩
    refine List.mem_filter.2 ⟨List.mem_map_of_mem _ hmem, ?_⟩
    rw [List.isEmpty_iff, hleft, List.filter_eq_nil_iff]
    intro lab hlab
    have hlab' := List.mem_dedup.1 hlab
    rcases hall lab hlab' with h | h | h <;>
      simp [h]

end SynRec


